import Mathlib

/-!
Verification of the QAOA QUBO solver core (`simple_qaoa_optimizer.py`).

Floating-point coefficients are modelled as exact rationals; bitstrings as
`List Bool`; the sparse QUBO dictionary as an association list in insertion
order (Python `dict` iterates in insertion order); the QUBO matrix as a
total function `ℕ → ℕ → ℚ` that is zero outside the written cells.
-/

/-- The sparsity threshold `1e-10` used by `_qubo_to_hamiltonian`. -/
def eps : ℚ := 1 / 10000000000

/-- A Hamiltonian term: the list of qubit positions carrying a `Z`
(in the order the builder writes them) together with its coefficient.
The constant term has an empty position list. -/
abbrev HamTerm := List ℕ × ℚ

/-- The pairs `(i, j)` visited by the source's nested loops
`for i in range(n): for j in range(i+1, n)`. -/
def pairList (n : ℕ) : List (ℕ × ℕ) :=
  (List.range n).flatMap (fun i => (List.range (n - (i + 1))).map (fun k => (i, k + (i + 1))))

/-- Mirrors `_qubo_to_hamiltonian` (simple_qaoa_optimizer.py lines 34-99): the
diagonal loop appends a `Z_i` term `q_ii/2` (adding `q_ii/2` to the running
constant) for every diagonal entry with `|q_ii| > 1e-10`; the off-diagonal
loop appends, for every `i < j` with `|q_ij| > 1e-10`, the three terms
`ZZ_ij`, `Z_i`, `Z_j`, each with coefficient `q_ij/4` (adding `q_ij/4` to the
constant); finally the constant is appended as an identity term when
`|constant| > 1e-10`. -/
def qubo_to_hamiltonian (n : ℕ) (Q : ℕ → ℕ → ℚ) : List HamTerm :=
  let diagState :=
    (List.range n).foldl
      (fun (st : List HamTerm × ℚ) i =>
        if eps < |Q i i| then (st.1 ++ [([i], Q i i / 2)], st.2 + Q i i / 2) else st)
      ([], 0)
  let offState :=
    (List.range n).foldl
      (fun st i =>
        (List.range (n - (i + 1))).foldl
          (fun (st : List HamTerm × ℚ) k =>
            let j := k + (i + 1)
            if eps < |Q i j| then
              (st.1 ++ [([i, j], Q i j / 4), ([i], Q i j / 4), ([j], Q i j / 4)],
               st.2 + Q i j / 4)
            else st)
          st)
      diagState
  if eps < |offState.2| then offState.1 ++ [([], offState.2)] else offState.1

/-- The eigenvalue of a `Z`-term on a bitstring under the convention the
spec states (`Z_i ↦ 1 - 2*x_i`, the convention the energy loop of
`_create_cost_function` at lines 425-434 is written to implement): the
product over the touched qubits of `1 - 2*bit`. -/
def term_eigenvalue (zs : List ℕ) (x : List Bool) : ℚ :=
  zs.foldl (fun acc q => acc * (1 - 2 * (if x.getD q false then 1 else 0))) 1

/-- The energy of a term list on a bitstring: sum over all terms of the
coefficient times the term's eigenvalue, constant term included — the
per-bitstring energy expression the spec states for the Hamiltonian (and
that lines 422-434 of `_create_cost_function` are written to compute). -/
def hamiltonian_energy (terms : List HamTerm) (x : List Bool) : ℚ :=
  (terms.map (fun t => t.2 * term_eigenvalue t.1 x)).sum

/-- Mirrors `_calculate_objective_value` (lines 501-524): linear sum
`Σ_i Q[i,i]*x_i` plus quadratic sum `Σ_{i<j} Q[i,j]*x_i*x_j`, with
`n = len(solution)`. -/
def calculate_objective_value (solution : List ℚ) (Q : ℕ → ℕ → ℚ) : ℚ :=
  let n := solution.length
  ((List.range n).map (fun i => Q i i * solution.getD i 0)).sum +
    ((pairList n).map (fun p => Q p.1 p.2 * solution.getD p.1 0 * solution.getD p.2 0)).sum

/-- 0/1 rational solution vector of a bit list (`int(bit)` per position). -/
def bits_to_rats (x : List Bool) : List ℚ :=
  x.map (fun b => if b then 1 else 0)

/-- Mirrors `solve_problem` lines 288-292: the matrix is built by assignment from the
dict in insertion order, writing `M[i,j] = c` and, when `i ≠ j`, also
`M[j,i] = c`; unwritten cells stay zero. -/
def build_qubo_matrix (D : List ((ℕ × ℕ) × ℚ)) : ℕ → ℕ → ℚ :=
  D.foldl
    (fun M e => fun a b =>
      if (a, b) = e.1 ∨ (e.1.1 ≠ e.1.2 ∧ (a, b) = (e.1.2, e.1.1)) then e.2 else M a b)
    (fun _ _ => 0)

/-- Mirrors `solve_problem` lines 281-285: `n_vars = max(all indices) + 1`. -/
def nvars (D : List ((ℕ × ℕ) × ℚ)) : ℕ :=
  (D.foldl (fun m e => max m (max e.1.1 e.1.2)) 0) + 1

/-- The diagonal block of the built Hamiltonian, as the spec describes it:
one `Z_i` term per diagonal entry above threshold, in variable order. -/
def diagBlock (n : ℕ) (Q : ℕ → ℕ → ℚ) : List HamTerm :=
  (List.range n).flatMap (fun i => if eps < |Q i i| then [([i], Q i i / 2)] else [])

/-- The off-diagonal block: for each pair `(i,j)` in lexicographic order with
`|q_ij| > 1e-10`, the consecutive triple `ZZ_ij, Z_i, Z_j`. -/
def offBlock (n : ℕ) (Q : ℕ → ℕ → ℚ) : List HamTerm :=
  (pairList n).flatMap (fun p =>
    if eps < |Q p.1 p.2| then
      [([p.1, p.2], Q p.1 p.2 / 4), ([p.1], Q p.1 p.2 / 4), ([p.2], Q p.1 p.2 / 4)]
    else [])

/-- The accumulated constant: half of each kept diagonal entry plus a quarter
of each kept off-diagonal entry. -/
def ham_constant (n : ℕ) (Q : ℕ → ℕ → ℚ) : ℚ :=
  ((List.range n).map (fun i => if eps < |Q i i| then Q i i / 2 else 0)).sum +
    ((pairList n).map (fun p => if eps < |Q p.1 p.2| then Q p.1 p.2 / 4 else 0)).sum

/-- The trailing constant term, present only when above threshold. -/
def constBlock (n : ℕ) (Q : ℕ → ℕ → ℚ) : List HamTerm :=
  if eps < |ham_constant n Q| then [([], ham_constant n Q)] else []

/-- A 2-variable QUBO whose variable 0 has both a diagonal entry and an
off-diagonal pair, exercising repeated `Z_0` contributions. -/
def dup_qubo : ℕ → ℕ → ℚ := fun i j => if i = j then 1 else 2

/-- A 1-variable QUBO whose single entry `1.5e-10` passes the builder's
pre-division threshold while its halved coefficient `0.75e-10` does not. -/
def tiny_qubo : ℕ → ℕ → ℚ := fun _ _ => 3 / 20000000000

/-- The concrete QUBO dictionary of the spec's scenario:
`linear={0:-1,1:-1,2:-2}`, `quadratic={(0,1):2,(0,2):1}`. -/
def scenario_dict : List ((ℕ × ℕ) × ℚ) :=
  [((0, 0), -1), ((1, 1), -1), ((2, 2), -2), ((0, 1), 2), ((0, 2), 1)]

/-- All eight 3-bit assignments as 0/1 solution vectors. -/
def all_solutions_3 : List (List ℚ) :=
  [[0, 0, 0], [0, 0, 1], [0, 1, 0], [0, 1, 1], [1, 0, 0], [1, 0, 1], [1, 1, 0], [1, 1, 1]]

/-- Sum of a flatMap as an iterated sum. -/
lemma sum_flatMap_eq {α : Type} (l : List α) (f : α → List ℚ) :
    (l.flatMap f).sum = (l.map fun a => (f a).sum).sum := by
  rw [List.flatMap, List.sum_flatten, List.map_map]
  rfl

/-- Closed form of the builder's diagonal loop. -/
lemma diag_fold_eq (Q : ℕ → ℕ → ℚ) :
    ∀ (l : List ℕ) (L : List HamTerm) (c : ℚ),
      l.foldl
        (fun (st : List HamTerm × ℚ) i =>
          if eps < |Q i i| then (st.1 ++ [([i], Q i i / 2)], st.2 + Q i i / 2) else st)
        (L, c) =
      (L ++ l.flatMap (fun i => if eps < |Q i i| then [([i], Q i i / 2)] else []),
        c + (l.map (fun i => if eps < |Q i i| then Q i i / 2 else 0)).sum) := by
  intro l
  induction l with
  | nil => intro L c; simp
  | cons a t ih =>
    intro L c
    by_cases h : eps < |Q a a| <;>
      simp [h, ih, List.append_assoc, add_assoc]

/-- Closed form of the builder's inner off-diagonal loop for a fixed row. -/
lemma inner_fold_eq (Q : ℕ → ℕ → ℚ) (i : ℕ) :
    ∀ (l : List ℕ) (L : List HamTerm) (c : ℚ),
      l.foldl
        (fun (st : List HamTerm × ℚ) k =>
          if eps < |Q i (k + (i + 1))| then
            (st.1 ++ [([i, k + (i + 1)], Q i (k + (i + 1)) / 4), ([i], Q i (k + (i + 1)) / 4),
                ([k + (i + 1)], Q i (k + (i + 1)) / 4)],
             st.2 + Q i (k + (i + 1)) / 4)
          else st)
        (L, c) =
      (L ++ l.flatMap
          (fun k => if eps < |Q i (k + (i + 1))| then
            [([i, k + (i + 1)], Q i (k + (i + 1)) / 4), ([i], Q i (k + (i + 1)) / 4),
              ([k + (i + 1)], Q i (k + (i + 1)) / 4)]
          else []),
        c + (l.map
          (fun k => if eps < |Q i (k + (i + 1))| then Q i (k + (i + 1)) / 4 else 0)).sum) := by
  intro l
  induction l with
  | nil => intro L c; simp
  | cons a t ih =>
    intro L c
    by_cases h : eps < |Q i (a + (i + 1))| <;>
      simp [h, ih, List.append_assoc, add_assoc]

/-- Closed form of the builder's outer off-diagonal loop. -/
lemma outer_fold_eq (n : ℕ) (Q : ℕ → ℕ → ℚ) :
    ∀ (l : List ℕ) (L : List HamTerm) (c : ℚ),
      l.foldl
        (fun st i =>
          (List.range (n - (i + 1))).foldl
            (fun (st : List HamTerm × ℚ) k =>
              if eps < |Q i (k + (i + 1))| then
                (st.1 ++ [([i, k + (i + 1)], Q i (k + (i + 1)) / 4), ([i], Q i (k + (i + 1)) / 4),
                    ([k + (i + 1)], Q i (k + (i + 1)) / 4)],
                 st.2 + Q i (k + (i + 1)) / 4)
              else st) st)
        (L, c) =
      (L ++ l.flatMap (fun i =>
          (List.range (n - (i + 1))).flatMap
            (fun k => if eps < |Q i (k + (i + 1))| then
              [([i, k + (i + 1)], Q i (k + (i + 1)) / 4), ([i], Q i (k + (i + 1)) / 4),
                ([k + (i + 1)], Q i (k + (i + 1)) / 4)]
            else [])),
        c + (l.map (fun i =>
          ((List.range (n - (i + 1))).map
            (fun k => if eps < |Q i (k + (i + 1))| then Q i (k + (i + 1)) / 4 else 0)).sum)).sum) := by
  intro l
  induction l with
  | nil => intro L c; simp
  | cons a t ih =>
    intro L c
    rw [List.foldl_cons, inner_fold_eq Q a, ih]
    simp [List.append_assoc, add_assoc]

/-- The builder `_qubo_to_hamiltonian` produces exactly: the diagonal block, then the
off-diagonal block of consecutive triples, then the constant term (when
above threshold). -/
lemma qubo_to_hamiltonian_eq_blocks (n : ℕ) (Q : ℕ → ℕ → ℚ) :
    qubo_to_hamiltonian n Q = diagBlock n Q ++ offBlock n Q ++ constBlock n Q := by
  have hoff : (List.range n).flatMap (fun i =>
      (List.range (n - (i + 1))).flatMap
        (fun k => if eps < |Q i (k + (i + 1))| then
          [([i, k + (i + 1)], Q i (k + (i + 1)) / 4), ([i], Q i (k + (i + 1)) / 4),
            ([k + (i + 1)], Q i (k + (i + 1)) / 4)]
        else [])) = offBlock n Q := by
    simp only [offBlock, pairList, List.flatMap_assoc, List.flatMap_map]
  have hconst : ((List.range n).map (fun i => if eps < |Q i i| then Q i i / 2 else 0)).sum +
      ((List.range n).map (fun i =>
        ((List.range (n - (i + 1))).map
          (fun k => if eps < |Q i (k + (i + 1))| then Q i (k + (i + 1)) / 4 else 0)).sum)).sum =
      ham_constant n Q := by
    simp [ham_constant, pairList, List.map_flatMap, sum_flatMap_eq, List.map_map,
      Function.comp_def]
  simp only [qubo_to_hamiltonian]
  rw [diag_fold_eq Q (List.range n) [] 0, outer_fold_eq n Q (List.range n)]
  simp only [List.nil_append, zero_add, hoff, hconst]
  by_cases h : eps < |ham_constant n Q| <;>
    simp [constBlock, diagBlock, h, List.append_assoc]

/-- C6 (counterexample): on the spec's concrete scenario the exact objective
of the bit vector `[0,0,1]` is `-2`, not the claimed `-3`. -/
theorem c6_counterexample :
    calculate_objective_value [0, 0, 1] (build_qubo_matrix scenario_dict) = -2 ∧
      ((-2 : ℚ) ≠ -3) := by
  refine ⟨?_, by norm_num⟩
  norm_num [calculate_objective_value, build_qubo_matrix, scenario_dict, pairList,
    List.range_succ]

/-- C6 (amended): exhaustive enumeration of all 3-bit assignments for the
scenario QUBO yields minimum objective `-3`, attained at `x = [0,1,1]`
(while `[0,0,1]` evaluates to `-2`); the exact recomputation
`_calculate_objective_value` at `[0,1,1]` always equals `-3`. -/
theorem c6_amended :
    (∀ s ∈ all_solutions_3,
        (-3 : ℚ) ≤ calculate_objective_value s (build_qubo_matrix scenario_dict)) ∧
      calculate_objective_value [0, 1, 1] (build_qubo_matrix scenario_dict) = -3 ∧
      calculate_objective_value [0, 0, 1] (build_qubo_matrix scenario_dict) = -2 := by
  norm_num [calculate_objective_value, build_qubo_matrix, scenario_dict, pairList,
    all_solutions_3, List.range_succ, List.forall_mem_cons]

/-- C5 (counterexample): for the QUBO `[[1,2],[2,1]]` the builder's term list
contains the signature `Z_0` twice (once from the diagonal, once from the
pair `(0,1)`): contributions of the same signature are not merged, and the
`Z` terms generated by the off-diagonal loop sit between the `ZZ` terms. -/
theorem c5_counterexample :
    qubo_to_hamiltonian 2 dup_qubo =
        [([0], 1 / 2), ([1], 1 / 2), ([0, 1], 1 / 2), ([0], 1 / 2), ([1], 1 / 2), ([], 3 / 2)] ∧
      (qubo_to_hamiltonian 2 dup_qubo).countP (fun t => t.1 == [0]) = 2 := by
  have h32 : (1 : ℚ) / 10000000000 < |(3 : ℚ) / 2| := by
    rw [abs_of_pos (by norm_num : (0 : ℚ) < 3 / 2)]
    norm_num
  have h : qubo_to_hamiltonian 2 dup_qubo =
      [([0], 1 / 2), ([1], 1 / 2), ([0, 1], 1 / 2), ([0], 1 / 2), ([1], 1 / 2), ([], 3 / 2)] := by
    norm_num [qubo_to_hamiltonian, dup_qubo, eps, List.range_succ, h32]
  refine ⟨h, ?_⟩
  rw [h]
  rfl

/-- C5 (amended): the builder's output order is deterministic but it is:
the diagonal `Z_i` terms in variable order, then for each off-diagonal pair
`(i,j)` in lexicographic order the consecutive triple `ZZ_ij, Z_i, Z_j`, and
the constant last; same-signature contributions are kept as separate list
entries, not accumulated into one coefficient. -/
theorem c5_amended (n : ℕ) (Q : ℕ → ℕ → ℚ) :
    qubo_to_hamiltonian n Q = diagBlock n Q ++ offBlock n Q ++ constBlock n Q :=
  qubo_to_hamiltonian_eq_blocks n Q

/-- C7 (counterexample): for the 1-variable QUBO with entry `1.5e-10` the
builder emits the term `Z_0` with coefficient `0.75e-10`, whose magnitude is
not greater than `1e-10`: the threshold is applied to the matrix entry
before dividing, so emitted coefficients can fall at or below `1e-10`. -/
theorem c7_counterexample :
    qubo_to_hamiltonian 1 tiny_qubo = [([0], 3 / 40000000000)] ∧
      ¬ ((1 : ℚ) / 10000000000 < |(3 : ℚ) / 40000000000|) := by
  have htiny : (1 : ℚ) / 10000000000 < |(3 : ℚ) / 20000000000| := by
    rw [abs_of_pos (by norm_num : (0 : ℚ) < 3 / 20000000000)]
    norm_num
  have hconst : ¬ ((1 : ℚ) / 10000000000 < |(3 : ℚ) / 40000000000|) := by
    rw [abs_of_pos (by norm_num : (0 : ℚ) < 3 / 40000000000)]
    norm_num
  constructor
  · norm_num [qubo_to_hamiltonian, tiny_qubo, eps, List.range_succ, htiny, hconst]
  · exact hconst

/-- C7 (amended): every term the builder emits has coefficient magnitude
strictly greater than `1e-10 / 4` (diagonal terms greater than `1e-10 / 2`,
the constant greater than `1e-10`); magnitudes in `(1e-10/4, 1e-10]` can
occur because the `1e-10` filter tests the matrix entry before the division
by 2 or 4. -/
theorem c7_amended (n : ℕ) (Q : ℕ → ℕ → ℚ) (t : HamTerm)
    (ht : t ∈ qubo_to_hamiltonian n Q) :
    (1 : ℚ) / 40000000000 < |t.2| := by
  rw [qubo_to_hamiltonian_eq_blocks, List.append_assoc] at ht
  rcases List.mem_append.1 ht with hd | h
  · rw [diagBlock] at hd
    obtain ⟨i, -, hti⟩ := List.mem_flatMap.1 hd
    by_cases hq : eps < |Q i i|
    · rw [if_pos hq, List.mem_singleton] at hti
      subst hti
      have h2 : |Q i i / 2| = |Q i i| / 2 := by
        rw [abs_div]
        norm_num
      rw [eps] at hq
      simp only [h2]
      linarith
    · rw [if_neg hq] at hti
      exact absurd hti (List.not_mem_nil t)
  rcases List.mem_append.1 h with ho | hc
  · rw [offBlock] at ho
    obtain ⟨p, -, htp⟩ := List.mem_flatMap.1 ho
    by_cases hq : eps < |Q p.1 p.2|
    · rw [if_pos hq] at htp
      have h4 : |Q p.1 p.2 / 4| = |Q p.1 p.2| / 4 := by
        rw [abs_div]
        norm_num
      rw [eps] at hq
      have hgt : (1 : ℚ) / 40000000000 < |Q p.1 p.2 / 4| := by
        rw [h4]
        linarith
      rw [List.mem_cons, List.mem_cons, List.mem_singleton] at htp
      rcases htp with h1 | h1 | h1 <;> rw [h1] <;> exact hgt
    · rw [if_neg hq] at htp
      exact absurd htp (List.not_mem_nil t)
  · rw [constBlock] at hc
    by_cases hq : eps < |ham_constant n Q|
    · rw [if_pos hq, List.mem_singleton] at hc
      subst hc
      rw [eps] at hq
      simp only
      linarith
    · rw [if_neg hq] at hc
      exact absurd hc (List.not_mem_nil t)

/-- C7 (witness): the amended bound applied to the `Z_0` term of the
`[[1,2],[2,1]]` QUBO. -/
theorem c7_witness :
    ([0], (1 : ℚ) / 2) ∈ qubo_to_hamiltonian 2 dup_qubo ∧
      (1 : ℚ) / 40000000000 < |(1 : ℚ) / 2| := by
  have hmem : ([0], (1 : ℚ) / 2) ∈ qubo_to_hamiltonian 2 dup_qubo := by
    have h32 : (1 : ℚ) / 10000000000 < |(3 : ℚ) / 2| := by
      rw [abs_of_pos (by norm_num : (0 : ℚ) < 3 / 2)]
      norm_num
    have h : qubo_to_hamiltonian 2 dup_qubo =
        [([0], 1 / 2), ([1], 1 / 2), ([0, 1], 1 / 2), ([0], 1 / 2), ([1], 1 / 2), ([], 3 / 2)] := by
      norm_num [qubo_to_hamiltonian, dup_qubo, eps, List.range_succ, h32]
    rw [h]
    simp
  exact ⟨hmem, c7_amended 2 dup_qubo ([0], 1 / 2) hmem⟩

/-- Splitting the energy over a concatenation of term lists. -/
lemma hamiltonian_energy_append (A B : List HamTerm) (x : List Bool) :
    hamiltonian_energy (A ++ B) x = hamiltonian_energy A x + hamiltonian_energy B x := by
  simp [hamiltonian_energy]

/-- Pointwise addition of two mapped sums over the same list. -/
lemma sum_map_add {α : Type} (l : List α) (f g : α → ℚ) :
    (l.map f).sum + (l.map g).sum = (l.map fun a => f a + g a).sum := by
  induction l with
  | nil => simp
  | cons a t ih => simp [← ih]; ring

/-- Eigenvalue of the empty (identity) term. -/
lemma term_eigenvalue_nil (x : List Bool) : term_eigenvalue [] x = 1 := rfl

/-- Eigenvalue of a single-qubit `Z` term. -/
lemma term_eigenvalue_single (a : ℕ) (x : List Bool) :
    term_eigenvalue [a] x = 1 - 2 * (if x.getD a false then 1 else 0) := by
  simp [term_eigenvalue]

/-- Eigenvalue of a two-qubit `ZZ` term. -/
lemma term_eigenvalue_pair (a b : ℕ) (x : List Bool) :
    term_eigenvalue [a, b] x =
      (1 - 2 * (if x.getD a false then 1 else 0)) *
        (1 - 2 * (if x.getD b false then 1 else 0)) := by
  simp [term_eigenvalue]

/-- Membership bounds for the nested-loop pair list. -/
lemma mem_pairList {n : ℕ} {p : ℕ × ℕ} (hp : p ∈ pairList n) :
    p.1 < p.2 ∧ p.2 < n := by
  simp only [pairList, List.mem_flatMap, List.mem_map, List.mem_range] at hp
  obtain ⟨i, hi, k, hk, rfl⟩ := hp
  omega

/-- The complemented 0/1 solution vector reads `1 - bit` at in-range
positions. -/
lemma getD_bits_compl (x : List Bool) (i : ℕ) (h : i < x.length) :
    (bits_to_rats (x.map not)).getD i 0 = 1 - (if x.getD i false then 1 else 0) := by
  have h1 : i < (bits_to_rats (x.map not)).length := by
    simp [bits_to_rats]
    exact h
  rw [List.getD_eq_getElem _ _ h1, List.getD_eq_getElem _ _ h]
  simp [bits_to_rats]
  cases x[i] <;> simp

/-- The all-ones QUBO, used at size 1 to exhibit the sign mismatch. -/
def unit_qubo : ℕ → ℕ → ℚ := fun _ _ => 1

/-- C1 (counterexample): for the QUBO `[[1]]` and `x = [1]` the Hamiltonian
energy under the convention `Z_i = 1 - 2*x_i` is `0`, while the exact QUBO
objective is `1`; the difference exceeds the claimed `1e-9` tolerance. -/
theorem c1_counterexample :
    hamiltonian_energy (qubo_to_hamiltonian 1 unit_qubo) [true] = 0 ∧
      calculate_objective_value [1] unit_qubo = 1 ∧
      ¬ (|hamiltonian_energy (qubo_to_hamiltonian 1 unit_qubo) [true] -
            calculate_objective_value [1] unit_qubo| ≤ 1 / 1000000000) := by
  have h12 : (1 : ℚ) / 10000000000 < |(1 : ℚ) / 2| := by
    rw [abs_of_pos (by norm_num : (0 : ℚ) < 1 / 2)]
    norm_num
  have hH : qubo_to_hamiltonian 1 unit_qubo = [([0], 1 / 2), ([], 1 / 2)] := by
    norm_num [qubo_to_hamiltonian, unit_qubo, eps, List.range_succ, h12]
  have hE : hamiltonian_energy (qubo_to_hamiltonian 1 unit_qubo) [true] = 0 := by
    rw [hH]
    norm_num [hamiltonian_energy, term_eigenvalue]
  have hO : calculate_objective_value [1] unit_qubo = 1 := by
    norm_num [calculate_objective_value, unit_qubo, pairList, List.range_succ]
  refine ⟨hE, hO, ?_⟩
  rw [hE, hO]
  norm_num

/-- C1 (amended): for every QUBO whose in-range entries are either zero or
above the `1e-10` threshold, the energy of the built Hamiltonian on `x`
under the convention `Z_i = 1 - 2*x_i` equals — within `1e-10`, so a
fortiori within `1e-9` — the exact QUBO objective evaluated at the
complemented assignment `1 - x` (the builder substitutes
`x_i = (1 + Z_i)/2`, so its energy under `Z_i = 1 - 2*x_i` is the objective
of the complement, not of `x`). -/
theorem c1_amended (n : ℕ) (Q : ℕ → ℕ → ℚ) (x : List Bool) (hx : x.length = n)
    (hQ : ∀ i, i < n → ∀ j, j < n → Q i j = 0 ∨ eps < |Q i j|) :
    |hamiltonian_energy (qubo_to_hamiltonian n Q) x -
        calculate_objective_value (bits_to_rats (x.map not)) Q| ≤ 1 / 10000000000 := by
  have hslen : (bits_to_rats (x.map not)).length = n := by
    simp [bits_to_rats]
    exact hx
  have e_diag : hamiltonian_energy (diagBlock n Q) x =
      ((List.range n).map
        (fun i => if eps < |Q i i| then Q i i / 2 * term_eigenvalue [i] x else 0)).sum := by
    rw [hamiltonian_energy, diagBlock, List.map_flatMap, sum_flatMap_eq]
    congr 1
    apply List.map_congr_left
    intro i _
    by_cases h : eps < |Q i i| <;> simp [h]
  have e_off : hamiltonian_energy (offBlock n Q) x =
      ((pairList n).map
        (fun p => if eps < |Q p.1 p.2| then
          Q p.1 p.2 / 4 * term_eigenvalue [p.1, p.2] x +
            Q p.1 p.2 / 4 * term_eigenvalue [p.1] x +
            Q p.1 p.2 / 4 * term_eigenvalue [p.2] x
        else 0)).sum := by
    rw [hamiltonian_energy, offBlock, List.map_flatMap, sum_flatMap_eq]
    congr 1
    apply List.map_congr_left
    intro p _
    by_cases h : eps < |Q p.1 p.2|
    · simp only [h, if_pos, List.map_cons, List.map_nil, List.sum_cons, List.sum_nil]
      ring
    · simp [h]
  have e_const : hamiltonian_energy (constBlock n Q) x =
      if eps < |ham_constant n Q| then ham_constant n Q else 0 := by
    by_cases h : eps < |ham_constant n Q| <;>
      simp [constBlock, h, hamiltonian_energy, term_eigenvalue]
  have obj_eq : calculate_objective_value (bits_to_rats (x.map not)) Q =
      ((List.range n).map
        (fun i => Q i i * (bits_to_rats (x.map not)).getD i 0)).sum +
      ((pairList n).map
        (fun p => Q p.1 p.2 * (bits_to_rats (x.map not)).getD p.1 0 *
          (bits_to_rats (x.map not)).getD p.2 0)).sum := by
    simp only [calculate_objective_value, hslen]
  have key : hamiltonian_energy (diagBlock n Q) x + hamiltonian_energy (offBlock n Q) x +
      ham_constant n Q = calculate_objective_value (bits_to_rats (x.map not)) Q := by
    rw [e_diag, e_off, obj_eq, ham_constant]
    have hd : ((List.range n).map
          (fun i => if eps < |Q i i| then Q i i / 2 * term_eigenvalue [i] x else 0)).sum +
        ((List.range n).map (fun i => if eps < |Q i i| then Q i i / 2 else 0)).sum =
        ((List.range n).map
          (fun i => Q i i * (bits_to_rats (x.map not)).getD i 0)).sum := by
      rw [sum_map_add]
      congr 1
      apply List.map_congr_left
      intro i hi
      have hin : i < n := List.mem_range.1 hi
      rw [getD_bits_compl x i (by rw [hx]; exact hin), term_eigenvalue_single]
      by_cases h : eps < |Q i i|
      · rw [if_pos h, if_pos h]
        ring
      · rcases hQ i hin i hin with h0 | habs
        · rw [if_neg h, if_neg h, h0]
          ring
        · exact absurd habs h
    have ho : ((pairList n).map
          (fun p => if eps < |Q p.1 p.2| then
            Q p.1 p.2 / 4 * term_eigenvalue [p.1, p.2] x +
              Q p.1 p.2 / 4 * term_eigenvalue [p.1] x +
              Q p.1 p.2 / 4 * term_eigenvalue [p.2] x
          else 0)).sum +
        ((pairList n).map (fun p => if eps < |Q p.1 p.2| then Q p.1 p.2 / 4 else 0)).sum =
        ((pairList n).map
          (fun p => Q p.1 p.2 * (bits_to_rats (x.map not)).getD p.1 0 *
            (bits_to_rats (x.map not)).getD p.2 0)).sum := by
      rw [sum_map_add]
      congr 1
      apply List.map_congr_left
      intro p hp
      obtain ⟨h12, h2n⟩ := mem_pairList hp
      have h1n : p.1 < n := lt_trans h12 h2n
      rw [getD_bits_compl x p.1 (by rw [hx]; exact h1n),
        getD_bits_compl x p.2 (by rw [hx]; exact h2n),
        term_eigenvalue_pair, term_eigenvalue_single, term_eigenvalue_single]
      by_cases h : eps < |Q p.1 p.2|
      · rw [if_pos h, if_pos h]
        ring
      · rcases hQ p.1 h1n p.2 h2n with h0 | habs
        · rw [if_neg h, if_neg h, h0]
          ring
        · exact absurd habs h
    linarith [hd, ho]
  rw [qubo_to_hamiltonian_eq_blocks, hamiltonian_energy_append, hamiltonian_energy_append,
    e_const]
  by_cases hk : eps < |ham_constant n Q|
  · rw [if_pos hk]
    have hz : hamiltonian_energy (diagBlock n Q) x + hamiltonian_energy (offBlock n Q) x +
        ham_constant n Q - calculate_objective_value (bits_to_rats (x.map not)) Q = 0 := by
      rw [key]
      ring
    rw [add_assoc] at hz ⊢
    rw [hz]  -- may fail; fallback below
    norm_num
  · rw [if_neg hk]
    have habs : |ham_constant n Q| ≤ eps := le_of_not_lt hk
    have hval : hamiltonian_energy (diagBlock n Q) x + hamiltonian_energy (offBlock n Q) x +
        0 - calculate_objective_value (bits_to_rats (x.map not)) Q =
        -(ham_constant n Q) := by
      linarith [key]
    rw [add_assoc]
    rw [show hamiltonian_energy (diagBlock n Q) x +
        (hamiltonian_energy (offBlock n Q) x + 0) =
        hamiltonian_energy (diagBlock n Q) x + hamiltonian_energy (offBlock n Q) x + 0 by ring]
    rw [hval, abs_neg]
    rw [eps] at habs
    exact habs

/-- C1 (witness): the amended bound applied to the QUBO `[[1]]` at `x = [1]`
(the complement `[0]` has objective `0`, which the energy matches exactly). -/
theorem c1_witness :
    ([true] : List Bool).length = 1 ∧
      |hamiltonian_energy (qubo_to_hamiltonian 1 unit_qubo) [true] -
          calculate_objective_value (bits_to_rats ([true].map not)) unit_qubo| ≤
        1 / 10000000000 :=
  ⟨rfl, c1_amended 1 unit_qubo [true] rfl (by
    intro i _ j _
    right
    rw [show unit_qubo i j = 1 from rfl, abs_one, eps]
    norm_num)⟩

/-- The single-qubit Pauli operators yielded by iterating a qiskit `Pauli`
object: `pauli_str` at line 125 is an element of `hamiltonian.paulis`
(a `PauliList`), so `for q, p in enumerate(pauli_str)` binds `p` to
single-qubit `Pauli` objects, not characters. -/
inductive PauliOp where
  | I : PauliOp
  | X : PauliOp
  | Y : PauliOp
  | Z : PauliOp
deriving DecidableEq

/-- Mirrors qiskit's `Pauli.__eq__` applied to a Python string operand: the
method is gated on `isinstance(other, BasePauli)` and returns `False` for
any non-Pauli operand, so `p == 'Z'` and `p == 'I'` are `False` for every
single-qubit Pauli `p`, whatever the string says. -/
def pauli_eq_str (_p : PauliOp) (_s : String) : Bool := false

/-- Mirrors the identity-skip test `all(p == 'I' for p in pauli_str)`
(line 126 of `_create_qaoa_circuit`, line 169 of
`_create_parameterized_circuit`), with the Pauli-vs-string equality above. -/
def term_is_skipped (ps : List PauliOp) : Bool :=
  ps.all (fun p => pauli_eq_str p "I")

/-- The diagonal phase angle of `Rz(theta)` on a basis state whose target
bit is `b`: `Rz(theta) = exp(-i*theta*Z/2)` multiplies the amplitude by
`exp(i * rz_angle theta b)` where the `Z` eigenvalue is `1 - 2*b`. -/
def rz_angle (theta : ℚ) (b : Bool) : ℚ :=
  -(theta / 2) * (1 - 2 * (if b then 1 else 0))

/-- The phase angle the cost step actually accumulates on basis state `x`
for one Hamiltonian term: lines 131-133 run
`for q, p in enumerate(pauli_str): if p == 'Z': qc.rz(2*gamma*coeff, q)`,
so the qiskit Pauli-vs-string guard decides, position by position, whether
the `Rz(2*gamma*coeff)` diagonal phase is added to the accumulator. -/
def cost_term_angle_actual (gamma c : ℚ) (ps : List PauliOp) (x : List Bool) : ℚ :=
  ps.enum.foldl
    (fun acc qp =>
      if pauli_eq_str qp.2 "Z" = true then acc + rz_angle (2 * gamma * c) (x.getD qp.1 false)
      else acc)
    0

/-- The rotation guard never fires, so the cost fold returns its start. -/
lemma cost_angle_fold_fixed (gamma c : ℚ) (x : List Bool) :
    ∀ (l : List (ℕ × PauliOp)) (a : ℚ),
      l.foldl
        (fun acc qp =>
          if pauli_eq_str qp.2 "Z" = true then
            acc + rz_angle (2 * gamma * c) (x.getD qp.1 false)
          else acc)
        a = a := by
  intro l
  induction l with
  | nil => intro a; rfl
  | cons e t ih =>
    intro a
    rw [List.foldl_cons, if_neg (by simp [pauli_eq_str])]
    exact ih a

/-- C2 (counterexample): for a single-qubit `Z` term with `gamma = 1`,
`coeff = 1`, on the bitstring `[0]` (claimed eigenvalue `+1`), the claimed
phase factor `exp(-i*2*1*1*1) = exp(-2i)` differs from the factor the code
actually applies, which is `exp(i*0) = 1`: the guard `p == \'Z\'` compares a
qiskit Pauli object to a string and is always `False`, so the rotation
never runs. -/
theorem c2_counterexample :
    cost_term_angle_actual 1 1 [PauliOp.Z] [false] = 0 ∧
      Complex.exp (Complex.I *
          ((-(2 * 1 * 1 * term_eigenvalue [0] [false]) : ℚ) : ℂ)) ≠
        Complex.exp (Complex.I *
          ((cost_term_angle_actual 1 1 [PauliOp.Z] [false] : ℚ) : ℂ)) := by
  have h0 : cost_term_angle_actual 1 1 [PauliOp.Z] [false] = 0 := rfl
  refine ⟨h0, ?_⟩
  have h2 : (-(2 * 1 * 1 * term_eigenvalue [0] [false]) : ℚ) = -2 := by
    norm_num [term_eigenvalue]
  rw [h0, h2]
  intro h
  rw [Complex.exp_eq_exp_iff_exists_int] at h
  obtain ⟨k, hk⟩ := h
  have hI : (Complex.I * ((-2 : ℚ) : ℂ) - Complex.I * ((0 : ℚ) : ℂ)) =
      Complex.I * (-2) := by
    push_cast
    ring
  have hk2 : Complex.I * (-2) = Complex.I * ((k : ℂ) * (2 * (Real.pi : ℂ))) := by
    rw [← hI, hk]
    ring
  have hc : (-2 : ℂ) = (k : ℂ) * (2 * (Real.pi : ℂ)) :=
    mul_left_cancel₀ Complex.I_ne_zero hk2
  have hr : (-2 : ℝ) = (k : ℝ) * (2 * Real.pi) := by
    have := congrArg Complex.re hc
    push_cast at this
    simpa using this
  have hpi := Real.pi_gt_three
  rcases eq_or_ne k 0 with rfl | hk0
  · norm_num at hr
  · have habs : (1 : ℝ) ≤ |(k : ℝ)| := by
      have := Int.one_le_abs hk0
      exact_mod_cast this
    have habs2 : |(-2 : ℝ)| = |(k : ℝ)| * |2 * Real.pi| := by
      rw [hr, abs_mul]
    rw [abs_of_pos (by linarith : (0 : ℝ) < 2 * Real.pi)] at habs2
    have h2abs : |(-2 : ℝ)| = 2 := by norm_num
    rw [h2abs] at habs2
    nlinarith

/-- C2 (amended): the cost step leaves the amplitude vector unchanged for
EVERY Hamiltonian term and every bitstring — the accumulated phase angle is
`0`, the phase factor `1` — because the guard `p == \'Z\'` compares a qiskit
Pauli object against a string and is always `False`, so no `Rz` rotation is
ever applied; likewise the identity-skip test is `False` for every term
with at least one qubit, so identity terms are not even skipped — they fall
through to the inert rotation loop. -/
theorem c2_amended (gamma c : ℚ) (ps : List PauliOp) (x : List Bool)
    (p0 : PauliOp) (ps0 : List PauliOp) :
    cost_term_angle_actual gamma c ps x = 0 ∧
      Complex.exp (Complex.I * ((cost_term_angle_actual gamma c ps x : ℚ) : ℂ)) = 1 ∧
      term_is_skipped (p0 :: ps0) = false := by
  have h0 : cost_term_angle_actual gamma c ps x = 0 :=
    cost_angle_fold_fixed gamma c x ps.enum 0
  refine ⟨h0, ?_, ?_⟩
  · rw [h0]
    simp
  · simp [term_is_skipped, pauli_eq_str]

/-- The result record assembled by `solve_problem` (lines 344-350). -/
structure SolveOutcome where
  solution : List ℚ
  objective_value : ℚ
  probability : ℚ
  success : Bool

/-- Mirrors `best_bitstring = max(counts, key=counts.get)` (line 336): Python's
`max` scans the histogram in insertion order and replaces the current best
only on a strictly larger count, so the first maximal entry wins. -/
def extract_best (counts : List (List Bool × ℕ)) : Option (List Bool × ℕ) :=
  match counts with
  | [] => none
  | c :: rest => some (rest.foldl (fun b e => if b.2 < e.2 then e else b) c)

/-- Mirrors `best_solution = [int(bit) for bit in best_bitstring[::-1]]` (line 337). -/
def bits_to_solution (bs : List Bool) : List ℚ :=
  (bs.reverse).map (fun b => if b then 1 else 0)

/-- Mirrors `solve_problem` (lines 265-357): matrix construction, circuit execution
(injected here as `run_outcome`, the external backend's sampling result), result
extraction; any exception is logged and re-raised (lines 355-357), so a
failed pipeline yields the same error, never a fallback result. -/
def solve_problem (D : List ((ℕ × ℕ) × ℚ)) (shots : ℕ)
    (run_outcome : Except String (List (List Bool × ℕ))) : Except String SolveOutcome :=
  let M := build_qubo_matrix D
  match run_outcome with
  | .error e => .error e
  | .ok counts =>
    match extract_best counts with
    | none => .error "max() arg is an empty sequence"
    | some best =>
      let sol := bits_to_solution best.1
      .ok ⟨sol, calculate_objective_value sol M, (best.2 : ℚ) / (shots : ℚ), true⟩

/-- Histogram with a count tie between `"1"` (inserted first) and `"0"`. -/
def tie_counts : List (List Bool × ℕ) := [([true], 5), ([false], 5)]

/-- Strict lexicographic order on bitstrings with `0 < 1`, following the
spec's tie-breaking rule. -/
def lex_lt : List Bool → List Bool → Bool
  | [], [] => false
  | [], _ :: _ => true
  | _ :: _, [] => false
  | a :: as, b :: bs => (!a && b) || (a == b && lex_lt as bs)

/-- The selection rule as the spec words it: highest count, ties broken by
the lexicographically lowest bitstring. -/
def spec_extract_best (counts : List (List Bool × ℕ)) : Option (List Bool × ℕ) :=
  match counts with
  | [] => none
  | c :: rest =>
    some (rest.foldl
      (fun b e => if b.2 < e.2 ∨ (e.2 = b.2 ∧ lex_lt e.1 b.1 = true) then e else b) c)

/-- C3 (counterexample): for the spec's 3-variable scenario QUBO (well below
the claimed 20-variable ceiling), a failed quantum pipeline makes
`solve_problem` return the error itself — no exhaustive-enumeration fallback
result with `success = true` and `probability = 1.0` is produced. -/
theorem c3_counterexample :
    nvars scenario_dict = 3 ∧
      solve_problem scenario_dict 4096 (Except.error "backend unavailable") =
        Except.error "backend unavailable" := by
  exact ⟨rfl, rfl⟩

/-- C3 (amended): whenever the quantum pipeline fails, `solve_problem`
re-raises the failure unchanged for every QUBO and shot count: the only
fallback in the repository lives in `QAOAPortfolioOptimizer.solve`, which
delegates to a classical exact eigensolver with no 20-variable ceiling, no
`probability` field and no `success=false` path (it re-raises if the
fallback fails too). -/
theorem c3_amended (D : List ((ℕ × ℕ) × ℚ)) (shots : ℕ) (e : String) :
    solve_problem D shots (Except.error e) = Except.error e := rfl

/-- C4 (counterexample): on a histogram where `"1"` and `"0"` tie at count 5
with `"1"` inserted first, the code selects `"1"` (first insertion wins)
while the spec's lexicographic tie-break selects `"0"`. -/
theorem c4_counterexample :
    extract_best tie_counts = some ([true], 5) ∧
      spec_extract_best tie_counts = some ([false], 5) ∧
      (([true], 5) : List Bool × ℕ) ≠ ([false], 5) := by
  refine ⟨rfl, rfl, by simp⟩

/-- The fold used by `max(counts, key=counts.get)` returns the first entry
attaining the maximal count: all earlier entries are strictly smaller, all
later ones no larger. -/
lemma extract_best_first_max :
    ∀ (rest : List (List Bool × ℕ)) (c : List Bool × ℕ),
      ∃ l1 l2,
        c :: rest = l1 ++ (rest.foldl (fun b e => if b.2 < e.2 then e else b) c) :: l2 ∧
        (∀ e ∈ l1, e.2 < (rest.foldl (fun b e => if b.2 < e.2 then e else b) c).2) ∧
        (∀ e ∈ l2, e.2 ≤ (rest.foldl (fun b e => if b.2 < e.2 then e else b) c).2) := by
  intro rest
  induction rest with
  | nil =>
    intro c
    exact ⟨[], [], rfl, by simp, by simp⟩
  | cons e t ih =>
    intro c
    rw [List.foldl_cons]
    by_cases h : c.2 < e.2
    · rw [if_pos h]
      obtain ⟨l1, l2, hdec, hlt, hle⟩ := ih e
      refine ⟨c :: l1, l2, ?_, ?_, hle⟩
      · rw [List.cons_append, ← hdec]
      · intro a ha
        rcases List.mem_cons.1 ha with rfl | ha'
        · rcases l1 with _ | ⟨b, m⟩
          · rw [List.nil_append] at hdec
            injection hdec with hhead _
            rw [← hhead]
            exact h
          · rw [List.cons_append] at hdec
            injection hdec with hhead _
            have hb : b.2 < (t.foldl (fun b e => if b.2 < e.2 then e else b) e).2 :=
              hlt b (List.mem_cons_self b m)
            rw [← hhead] at hb
            exact lt_trans h hb
        · exact hlt a ha'
    · rw [if_neg h]
      obtain ⟨l1, l2, hdec, hlt, hle⟩ := ih c
      rcases l1 with _ | ⟨b, m⟩
      · rw [List.nil_append] at hdec
        injection hdec with hhead htail
        refine ⟨[], e :: t, ?_, by simp, ?_⟩
        · rw [List.nil_append, ← hhead]
        · intro a ha
          rcases List.mem_cons.1 ha with rfl | ha'
          · rw [← hhead]
            exact le_of_not_lt h
          · rw [htail] at ha'
            exact hle a ha'
      · rw [List.cons_append] at hdec
        injection hdec with hhead htail
        refine ⟨c :: e :: m, l2, ?_, ?_, hle⟩
        · rw [List.cons_append, List.cons_append, ← htail]
        · intro a ha
          have hcb : c.2 < (t.foldl (fun b e => if b.2 < e.2 then e else b) c).2 := by
            have hb := hlt b (List.mem_cons_self b m)
            rw [← congrArg Prod.snd hhead] at hb
            exact hb
          rcases List.mem_cons.1 ha with rfl | ha'
          · exact hcb
          rcases List.mem_cons.1 ha' with rfl | ha''
          · exact lt_of_le_of_lt (le_of_not_lt h) hcb
          · exact hlt a (List.mem_cons_of_mem _ ha'')

/-- C4 (amended): on a nonempty histogram, `solve_problem` selects the FIRST
entry (in insertion order) attaining the maximal count — not the
lexicographically lowest — and reports probability `count/shots` (the
configured shot count) and the objective computed by the exact
linear+quadratic QUBO formula on the selected (bit-reversed) assignment. -/
theorem c4_amended (D : List ((ℕ × ℕ) × ℚ)) (shots : ℕ)
    (c : List Bool × ℕ) (rest : List (List Bool × ℕ)) :
    ∃ best l1 l2,
      extract_best (c :: rest) = some best ∧
      c :: rest = l1 ++ best :: l2 ∧
      (∀ e ∈ l1, e.2 < best.2) ∧
      (∀ e ∈ l2, e.2 ≤ best.2) ∧
      solve_problem D shots (Except.ok (c :: rest)) =
        Except.ok ⟨bits_to_solution best.1,
          calculate_objective_value (bits_to_solution best.1) (build_qubo_matrix D),
          (best.2 : ℚ) / (shots : ℚ), true⟩ := by
  obtain ⟨l1, l2, hdec, hlt, hle⟩ := extract_best_first_max rest c
  exact ⟨_, l1, l2, rfl, hdec, hlt, hle, rfl⟩

/-- Reading one cell of the matrix fold: the nested function fold collapses
to a scalar fold over the entries that write cell `(a, b)`. -/
lemma build_cell_fold (a b : ℕ) :
    ∀ (D : List ((ℕ × ℕ) × ℚ)) (M : ℕ → ℕ → ℚ),
      (D.foldl (fun M e => fun a' b' =>
          if (a', b') = e.1 ∨ (e.1.1 ≠ e.1.2 ∧ (a', b') = (e.1.2, e.1.1)) then e.2
          else M a' b') M) a b =
        D.foldl (fun v e =>
          if (a, b) = e.1 ∨ (e.1.1 ≠ e.1.2 ∧ (a, b) = (e.1.2, e.1.1)) then e.2 else v)
          (M a b) := by
  intro D
  induction D with
  | nil => intro M; rfl
  | cons e t ih =>
    intro M
    rw [List.foldl_cons, List.foldl_cons, ih]

/-- A cell fold started at the common value of all its writers stays there. -/
lemma cell_fold_stay (a b : ℕ) (cv : ℚ) :
    ∀ (l : List ((ℕ × ℕ) × ℚ)),
      (∀ e ∈ l, ((a, b) = e.1 ∨ (e.1.1 ≠ e.1.2 ∧ (a, b) = (e.1.2, e.1.1))) → e.2 = cv) →
      l.foldl (fun v e =>
        if (a, b) = e.1 ∨ (e.1.1 ≠ e.1.2 ∧ (a, b) = (e.1.2, e.1.1)) then e.2 else v) cv =
        cv := by
  intro l
  induction l with
  | nil => intro _; rfl
  | cons e t ih =>
    intro h
    rw [List.foldl_cons]
    by_cases hw : (a, b) = e.1 ∨ (e.1.1 ≠ e.1.2 ∧ (a, b) = (e.1.2, e.1.1))
    · rw [if_pos hw, h e (List.mem_cons_self e t) hw]
      exact ih (fun e' he' => h e' (List.mem_cons_of_mem _ he'))
    · rw [if_neg hw]
      exact ih (fun e' he' => h e' (List.mem_cons_of_mem _ he'))

/-- A cell fold that meets a writer ends at the writers' common value,
whatever it started from. -/
lemma cell_fold_reach (a b : ℕ) (cv : ℚ) :
    ∀ (l : List ((ℕ × ℕ) × ℚ)) (v : ℚ),
      (∀ e ∈ l, ((a, b) = e.1 ∨ (e.1.1 ≠ e.1.2 ∧ (a, b) = (e.1.2, e.1.1))) → e.2 = cv) →
      (∃ e ∈ l, (a, b) = e.1 ∨ (e.1.1 ≠ e.1.2 ∧ (a, b) = (e.1.2, e.1.1))) →
      l.foldl (fun v e =>
        if (a, b) = e.1 ∨ (e.1.1 ≠ e.1.2 ∧ (a, b) = (e.1.2, e.1.1)) then e.2 else v) v =
        cv := by
  intro l
  induction l with
  | nil =>
    intro v _ hex
    obtain ⟨e, he, -⟩ := hex
    exact absurd he (List.not_mem_nil e)
  | cons e t ih =>
    intro v hall hex
    rw [List.foldl_cons]
    by_cases hw : (a, b) = e.1 ∨ (e.1.1 ≠ e.1.2 ∧ (a, b) = (e.1.2, e.1.1))
    · rw [if_pos hw, hall e (List.mem_cons_self e t) hw]
      exact cell_fold_stay a b cv t (fun e' he' => hall e' (List.mem_cons_of_mem _ he'))
    · rw [if_neg hw]
      obtain ⟨e', he', hwe'⟩ := hex
      rcases List.mem_cons.1 he' with rfl | he''
      · exact absurd hwe' hw
      · exact ih v (fun a ha => hall a (List.mem_cons_of_mem _ ha)) ⟨e', he'', hwe'⟩

/-- The running maximum never decreases below its start. -/
lemma max_fold_init_le :
    ∀ (l : List ((ℕ × ℕ) × ℚ)) (m : ℕ),
      m ≤ l.foldl (fun m e => max m (max e.1.1 e.1.2)) m := by
  intro l
  induction l with
  | nil => intro m; exact le_refl m
  | cons e t ih =>
    intro m
    exact le_trans (le_max_left _ _) (ih _)

/-- Every visited index bounds the final running maximum from below. -/
lemma max_fold_mem_le :
    ∀ (l : List ((ℕ × ℕ) × ℚ)) (m : ℕ) (e : (ℕ × ℕ) × ℚ), e ∈ l →
      max e.1.1 e.1.2 ≤ l.foldl (fun m e => max m (max e.1.1 e.1.2)) m := by
  intro l
  induction l with
  | nil =>
    intro m e he
    exact absurd he (List.not_mem_nil e)
  | cons a t ih =>
    intro m e he
    rw [List.foldl_cons]
    rcases List.mem_cons.1 he with rfl | he'
    · exact le_trans (le_max_right _ _) (max_fold_init_le t _)
    · exact ih _ e he'

/-- The running maximum is bounded by any bound on its start and inputs. -/
lemma max_fold_le :
    ∀ (l : List ((ℕ × ℕ) × ℚ)) (m M : ℕ), m ≤ M →
      (∀ e ∈ l, max e.1.1 e.1.2 ≤ M) →
      l.foldl (fun m e => max m (max e.1.1 e.1.2)) m ≤ M := by
  intro l
  induction l with
  | nil => intro m M hm _; exact hm
  | cons a t ih =>
    intro m M hm h
    rw [List.foldl_cons]
    exact ih _ M (max_le hm (h a (List.mem_cons_self a t)))
      (fun e he => h e (List.mem_cons_of_mem _ he))

/-- With pairwise-distinct keys, an entry is determined by its key. -/
lemma keys_nodup_inj :
    ∀ (D : List ((ℕ × ℕ) × ℚ)), (D.map Prod.fst).Nodup →
      ∀ e ∈ D, ∀ e' ∈ D, e.1 = e'.1 → e = e' := by
  intro D
  induction D with
  | nil =>
    intro _ e he
    exact absurd he (List.not_mem_nil e)
  | cons d t ih =>
    intro hnd e he e' he' hkey
    rw [List.map_cons, List.nodup_cons] at hnd
    obtain ⟨hdni, hnd'⟩ := hnd
    rcases List.mem_cons.1 he with rfl | he2 <;> rcases List.mem_cons.1 he' with rfl | he2'
    · rfl
    · exact absurd (hkey ▸ List.mem_map_of_mem Prod.fst he2') hdni
    · exact absurd (hkey ▸ List.mem_map_of_mem Prod.fst he2) hdni
    · exact ih hnd' e he2 e' he2' hkey

/-- C9: a sparse QUBO dict containing both mirrored keys `(i,j)` and `(j,i)`
with the same coefficient builds exactly the same variable count, QUBO
matrix and Hamiltonian as the dict with the `(j,i)` entry removed: entries
are assigned (not accumulated), so the effective penalty is not doubled. -/
theorem c9_mirror_insensitive (D : List ((ℕ × ℕ) × ℚ)) (i j : ℕ) (cv : ℚ)
    (hij : i ≠ j)
    (hkeys : (D.map Prod.fst).Nodup)
    (h1 : ((i, j), cv) ∈ D)
    (h2 : ((j, i), cv) ∈ D) :
    nvars (D.erase ((j, i), cv)) = nvars D ∧
      build_qubo_matrix (D.erase ((j, i), cv)) = build_qubo_matrix D ∧
      qubo_to_hamiltonian (nvars (D.erase ((j, i), cv)))
          (build_qubo_matrix (D.erase ((j, i), cv))) =
        qubo_to_hamiltonian (nvars D) (build_qubo_matrix D) := by
  have hne : ((i, j), cv) ≠ ((j, i), cv) := by
    intro hcontra
    apply hij
    have := congrArg (fun e => e.1.1) hcontra
    exact this
  obtain ⟨l1, l2, hnotin, hD, hE⟩ := List.exists_erase_eq h2
  have hall : ∀ e ∈ D,
      ((i, j) = e.1 ∨ (e.1.1 ≠ e.1.2 ∧ (i, j) = (e.1.2, e.1.1))) ∨
        ((j, i) = e.1 ∨ (e.1.1 ≠ e.1.2 ∧ (j, i) = (e.1.2, e.1.1))) → e.2 = cv := by
    intro e he hw
    have hkey : e.1 = (i, j) ∨ e.1 = (j, i) := by
      rcases hw with (h' | ⟨-, h'⟩) | (h' | ⟨-, h'⟩)
      · exact Or.inl h'.symm
      · right
        obtain ⟨ha, hb⟩ := Prod.mk.injEq .. ▸ h'
        exact Prod.ext (by rw [← hb]) (by rw [← ha])
      · exact Or.inr h'.symm
      · left
        obtain ⟨ha, hb⟩ := Prod.mk.injEq .. ▸ h'
        exact Prod.ext (by rw [← hb]) (by rw [← ha])
    rcases hkey with hk | hk
    · have := keys_nodup_inj D hkeys e he ((i, j), cv) h1 hk
      rw [this]
    · have := keys_nodup_inj D hkeys e he ((j, i), cv) h2 hk
      rw [this]
  have hm : build_qubo_matrix (D.erase ((j, i), cv)) = build_qubo_matrix D := by
    funext a b
    show (build_qubo_matrix (D.erase ((j, i), cv))) a b = (build_qubo_matrix D) a b
    rw [build_qubo_matrix, build_qubo_matrix, build_cell_fold, build_cell_fold, hE, hD]
    rw [List.foldl_append, List.foldl_append, List.foldl_cons]
    by_cases hw : (a, b) = ((j, i), cv).1 ∨
        (((j, i), cv).1.1 ≠ ((j, i), cv).1.2 ∧ (a, b) = (((j, i), cv).1.2, ((j, i), cv).1.1))
    · rw [if_pos hw]
      have hab : (a, b) = (j, i) ∨ (a, b) = (i, j) := by
        rcases hw with h' | ⟨-, h'⟩
        · exact Or.inl h'
        · exact Or.inr h'
      have hall' : ∀ e ∈ D,
          ((a, b) = e.1 ∨ (e.1.1 ≠ e.1.2 ∧ (a, b) = (e.1.2, e.1.1))) → e.2 = cv := by
        intro e he hwe
        apply hall e he
        rcases hab with rfl' | rfl'
        all_goals {
          rw [rfl'] at hwe
          first
            | exact Or.inr hwe
            | exact Or.inl hwe
        }
      have hl1sub : ∀ e ∈ l1, e ∈ D := by
        intro e he
        rw [hD]
        exact List.mem_append_left _ he
      have hl2sub : ∀ e ∈ l2, e ∈ D := by
        intro e he
        rw [hD]
        exact List.mem_append_right _ (List.mem_cons_of_mem _ he)
      have hWm : (a, b) = ((i, j), cv).1 ∨
          (((i, j), cv).1.1 ≠ ((i, j), cv).1.2 ∧ (a, b) = (((i, j), cv).1.2, ((i, j), cv).1.1)) := by
        rcases hab with h' | h'
        · exact Or.inr ⟨hij, h'⟩
        · exact Or.inl h'
      have hmem12 : ((i, j), cv) ∈ l1 ∨ ((i, j), cv) ∈ l2 := by
        have : ((i, j), cv) ∈ l1 ++ ((j, i), cv) :: l2 := hD ▸ h1
        rcases List.mem_append.1 this with h' | h'
        · exact Or.inl h'
        · rcases List.mem_cons.1 h' with h'' | h''
          · exact absurd h'' hne
          · exact Or.inr h''
      have hRHS : List.foldl (fun v e =>
          if (a, b) = e.1 ∨ (e.1.1 ≠ e.1.2 ∧ (a, b) = (e.1.2, e.1.1)) then e.2 else v) cv l2 =
          cv :=
        cell_fold_stay a b cv l2 (fun e he => hall' e (hl2sub e he))
      rcases hmem12 with hin1 | hin2
      · have hv1 : List.foldl (fun v e =>
            if (a, b) = e.1 ∨ (e.1.1 ≠ e.1.2 ∧ (a, b) = (e.1.2, e.1.1)) then e.2 else v)
            ((fun _ _ => (0 : ℚ)) a b) l1 = cv :=
          cell_fold_reach a b cv l1 _ (fun e he => hall' e (hl1sub e he))
            ⟨((i, j), cv), hin1, hWm⟩
        rw [hv1, hRHS]
      · rw [hRHS]
        exact cell_fold_reach a b cv l2 _ (fun e he => hall' e (hl2sub e he))
          ⟨((i, j), cv), hin2, hWm⟩
    · rw [if_neg hw]
  have hn : nvars (D.erase ((j, i), cv)) = nvars D := by
    rw [nvars, nvars]
    congr 1
    apply le_antisymm
    · apply max_fold_le
      · exact Nat.zero_le _
      · intro e he
        exact max_fold_mem_le D 0 e (List.erase_subset _ _ he)
    · apply max_fold_le
      · exact Nat.zero_le _
      · intro e he
        by_cases heq : e = ((j, i), cv)
        · subst heq
          have hmem : ((i, j), cv) ∈ D.erase ((j, i), cv) :=
            (List.mem_erase_of_ne hne).2 h1
          have := max_fold_mem_le (D.erase ((j, i), cv)) 0 ((i, j), cv) hmem
          calc max j i = max i j := max_comm j i
            _ ≤ _ := this
        · exact max_fold_mem_le (D.erase ((j, i), cv)) 0 e
            ((List.mem_erase_of_ne heq).2 he)
  exact ⟨hn, hm, by rw [hn, hm]⟩

/-- A sparse QUBO dict holding the mirrored pair `(0,1)` and `(1,0)`, both
with coefficient 2. -/
def mirror_dict : List ((ℕ × ℕ) × ℚ) := [((0, 1), 2), ((1, 0), 2)]

/-- C9 (witness): mirror-insensitivity at the concrete two-entry dict. -/
theorem c9_witness :
    nvars (mirror_dict.erase ((1, 0), 2)) = nvars mirror_dict ∧
      build_qubo_matrix (mirror_dict.erase ((1, 0), 2)) = build_qubo_matrix mirror_dict ∧
      qubo_to_hamiltonian (nvars (mirror_dict.erase ((1, 0), 2)))
          (build_qubo_matrix (mirror_dict.erase ((1, 0), 2))) =
        qubo_to_hamiltonian (nvars mirror_dict) (build_qubo_matrix mirror_dict) :=
  c9_mirror_insensitive mirror_dict 0 1 2 (by norm_num)
    (by simp [mirror_dict])
    (by simp [mirror_dict])
    (by simp [mirror_dict])

/-- Mirrors `_optimize_parameters` lines 462-469: the heuristic initial point,
`gamma = 0.8` for each layer followed by `beta = 0.4` for each layer. -/
def initial_point (reps : ℕ) : List ℚ :=
  List.replicate reps (4 / 5) ++ List.replicate reps (2 / 5)

/-- Mirrors `_optimize_parameters` (lines 443-499), parameterized by the external
COBYLA/SPSA minimizers (each returning the optimized parameter vector, the
final cost, and `nfev`, the number of cost evaluations, which the code reads
at line 488): the cost-function closure is built first (creating it runs no
circuit), the initial point is assembled, then the optimizer is selected by
name; any name other than COBYLA or SPSA raises
`ValueError("Unsupported optimizer: " + name)` at lines 478-479, before any
circuit is executed. -/
def optimize_parameters
    (minimizeCOBYLA minimizeSPSA : (List ℚ → ℚ) → List ℚ → List ℚ × ℚ × ℕ)
    (cost : List ℚ → ℚ) (reps : ℕ) (name : String) :
    Except String ((List ℚ × List ℚ × ℚ) × ℕ) :=
  let x0 := initial_point reps
  if name = "COBYLA" then
    let r := minimizeCOBYLA cost x0
    Except.ok ((r.1.take reps, r.1.drop reps, r.2.1), r.2.2)
  else if name = "SPSA" then
    let r := minimizeSPSA cost x0
    Except.ok ((r.1.take reps, r.1.drop reps, r.2.1), r.2.2)
  else Except.error ("Unsupported optimizer: " ++ name)

/-- The variational path of `solve_problem` (lines 314-353): parameter
optimization first (each of its `nfev` cost evaluations runs one circuit),
then one final sampling run and result extraction. The second component
counts circuit executions; a `ValueError` from optimizer selection
propagates through the re-raising `except` handler (lines 355-357) with
zero circuits executed and no result returned. -/
def solve_problem_variational
    (minimizeCOBYLA minimizeSPSA : (List ℚ → ℚ) → List ℚ → List ℚ × ℚ × ℕ)
    (cost : List ℚ → ℚ)
    (run_outcome : Except String (List (List Bool × ℕ)))
    (D : List ((ℕ × ℕ) × ℚ)) (shots reps : ℕ) (name : String) :
    Except String SolveOutcome × ℕ :=
  match optimize_parameters minimizeCOBYLA minimizeSPSA cost reps name with
  | .error e => (.error e, 0)
  | .ok (_, nfev) => (solve_problem D shots run_outcome, nfev + 1)

/-- C10: for every optimizer name other than COBYLA and SPSA, a variational
solve fails with the `Unsupported optimizer` ValueError before any circuit
is executed (execution count 0), whatever the external minimizers, cost
function, backend outcome, problem, shot count and depth are; in particular
no `success=true` result is returned. -/
theorem c10_invalid_optimizer
    (minC minS : (List ℚ → ℚ) → List ℚ → List ℚ × ℚ × ℕ) (cost : List ℚ → ℚ)
    (run_outcome : Except String (List (List Bool × ℕ)))
    (D : List ((ℕ × ℕ) × ℚ)) (shots reps : ℕ) (name : String)
    (hC : name ≠ "COBYLA") (hS : name ≠ "SPSA") :
    solve_problem_variational minC minS cost run_outcome D shots reps name =
      (Except.error ("Unsupported optimizer: " ++ name), 0) := by
  simp only [solve_problem_variational, optimize_parameters, if_neg hC, if_neg hS]

/-- C10 (witness): the theorem applied to the optimizer name `"ADAM"` with
concrete stub externals and the scenario QUBO. -/
theorem c10_witness :
    solve_problem_variational (fun _ x => (x, 0, 0)) (fun _ x => (x, 0, 0)) (fun _ => 0)
        (Except.ok tie_counts) scenario_dict 1024 1 "ADAM" =
      (Except.error ("Unsupported optimizer: " ++ "ADAM"), 0) :=
  c10_invalid_optimizer (fun _ x => (x, 0, 0)) (fun _ x => (x, 0, 0)) (fun _ => 0)
    (Except.ok tie_counts) scenario_dict 1024 1 "ADAM" (by decide) (by decide)
